import Mathlib

/-!
Shallow embedding of the MYCA course-scheduling core (files
`src/catalog.rs` and `src/schedule.rs`) and verification of the
specification claims about it.

Conventions of the embedding:
* Rust `HashSet` fields become `List` with insert-if-absent semantics;
  the claims under verification are insensitive to iteration order.
* Rust `HashMap`/`BTreeMap` become association lists; the `BTreeMap`
  backing a `Schedule` is key-ordered in Rust, which the claims use only
  through "first matching entry" scans, modelled by explicit recursion.
* `i32`/`u16` become `Int`/`Nat`; no claim exercises machine overflow
  (the only arithmetic is comparison and parsing of four-digit numbers).
* The recursive enumeration `Schedule::add_course_to_schedule` is not
  structurally terminating in Rust (a cyclic catalog diverges, which the
  spec declares a caller obligation), so the embedding adds an explicit
  fuel parameter; fuel exhaustion yields the empty result.  Every
  terminating Rust execution is reproduced by every sufficiently large
  fuel, and all theorems quantify over the fuel.
-/

namespace Myca

/-! ### CourseID (src/catalog.rs, module `course`) -/

/-- Embeds `CourseID { subj: String, code: u16 }`. -/
structure CourseID where
  subj : String
  code : Nat
deriving DecidableEq, Repr

/-- Drops the optional leading `+` sign accepted by Rust unsigned-integer
parsing. -/
def stripPlus : List Char → List Char
  | [] => []
  | c :: rest => if c = '+' then rest else c :: rest

/-- Models Rust `str::parse::<u16>` as used on the 4-character code slice:
an optional leading `+`, then at least one ASCII digit, value below
`2^16`; no leading or trailing whitespace is accepted. -/
def parseU16 (cs : List Char) : Option Nat :=
  let ds := stripPlus cs
  if ds = [] then none
  else if ds.all (fun c => c.isDigit) then
    let v := ds.foldl (fun a c => a * 10 + (c.toNat - 48)) 0
    if v < 65536 then some v else none
  else none

/-- Embeds `CourseID::from` (src/catalog.rs lines 177-200): length must be
8 or 9, the last 4 characters parse as `u16`, the first 4 characters must
lie in `A`..`Z`; middle characters are ignored. -/
def CourseID.fromStr (s : String) : Option CourseID :=
  let char_vec := s.data
  if char_vec.length ≠ 8 ∧ char_vec.length ≠ 9 then none
  else
    match parseU16 (char_vec.drop (char_vec.length - 4)) with
    | none => none
    | some code =>
      if (char_vec.take 4).all (fun c => 'A' ≤ c ∧ c ≤ 'Z') then
        some ⟨⟨char_vec.take 4⟩, code⟩
      else none

/-- The decimal digit characters used by Rust integer formatting
(only ever applied to values below 10). -/
def digitChar : Nat → Char
  | 0 => '0' | 1 => '1' | 2 => '2' | 3 => '3' | 4 => '4'
  | 5 => '5' | 6 => '6' | 7 => '7' | 8 => '8' | 9 => '9'
  | _ => '*'

/-- Fuel-driven decimal rendering of a natural number, most significant
digit first; models the digit loop of Rust `u16` `Display`. -/
def natDigitsAux : Nat → Nat → List Char
  | 0, _ => []
  | fuel + 1, n =>
    if n < 10 then [digitChar n]
    else natDigitsAux fuel (n / 10) ++ [digitChar (n % 10)]

/-- Decimal rendering of a natural number (no sign, no padding), as Rust
`u16: Display` produces for the course code. -/
def natRepr (n : Nat) : List Char := natDigitsAux (n + 1) n

/-- Embeds `impl fmt::Display for CourseID` (src/catalog.rs lines
215-219): `write!(f, "{} {}", self.subj, self.code)`. -/
def CourseID.render (id : CourseID) : String :=
  id.subj ++ " " ++ ⟨natRepr id.code⟩

/-! ### SemTime (src/schedule.rs lines 10-51) -/

/-- Embeds `enum SemTime { Fall(i32), Spring(i32), Summer(i32) }`. -/
inductive SemTime where
  | Fall : Int → SemTime
  | Spring : Int → SemTime
  | Summer : Int → SemTime
deriving DecidableEq, Repr

/-- The year carried by a `SemTime`. -/
def SemTime.year : SemTime → Int
  | .Fall y => y
  | .Spring y => y
  | .Summer y => y

/-- The season rank used by `PartialOrd for SemTime`:
Spring ↦ 0, Summer ↦ 1, Fall ↦ 2. -/
def SemTime.seasonRank : SemTime → Nat
  | .Spring _ => 0
  | .Summer _ => 1
  | .Fall _ => 2

/-- Models `i32::partial_cmp` (total comparison on integers). -/
def intCmp (a b : Int) : Ordering :=
  if a < b then .lt else if a = b then .eq else .gt

/-- Models the season-rank comparison (`partial_cmp` on small integers). -/
def natCmp (a b : Nat) : Ordering :=
  if a < b then .lt else if a = b then .eq else .gt

/-- Embeds `impl PartialOrd for SemTime` (src/schedule.rs lines 27-51):
equal values compare `Equal`; otherwise compare by year, then by season
rank. -/
def SemTime.pcmp (a b : SemTime) : Ordering :=
  if a = b then .eq
  else if a.year ≠ b.year then intCmp a.year b.year
  else natCmp a.seasonRank b.seasonRank

/-- The strict order used by the schedule code (`time < &sem` goes through
`Ord::cmp`, which is `partial_cmp(..).unwrap()`). -/
def SemTime.blt (a b : SemTime) : Bool := SemTime.pcmp a b == .lt

/-! ### Course and Catalog (src/catalog.rs) -/

/-- Embeds `struct Course` (src/catalog.rs lines 226-244); `HashSet`
fields become lists with insert-if-absent updates. -/
structure Course where
  complete : Bool
  name : String
  description : String
  coid : CourseID
  offered : String
  age_reqs : String
  prereqs : List (List CourseID)
  prereqs_opt : List CourseID
  coreqs : List (List CourseID)
  coreqs_opt : List CourseID
  post_options : List CourseID
deriving DecidableEq, Repr

/-- Embeds `Course::new` (src/catalog.rs lines 247-261): a placeholder
record carrying only the id. -/
def Course.new (coid : CourseID) : Course :=
  ⟨true, "", "", coid, "", "", [], [], [], [], []⟩

/-- Embeds `Course::add_postoption`: `HashSet::insert` on `post_options`. -/
def Course.add_postoption (c : Course) (coid : CourseID) : Course :=
  { c with post_options :=
      if coid ∈ c.post_options then c.post_options
      else c.post_options ++ [coid] }

/-- Embeds `Catalog { courses: HashMap<CourseID, Course> }` as an
association list with unique keys. -/
structure Catalog where
  courses : List (CourseID × Course)
deriving DecidableEq, Repr

/-- First-match lookup in an association list (the unique binding, for
maps with distinct keys). -/
def lookupCourse (coid : CourseID) : List (CourseID × Course) → Option Course
  | [] => none
  | p :: rest => if p.1 = coid then some p.2 else lookupCourse coid rest

/-- Embeds `Catalog::get_course`: `HashMap::get`. -/
def Catalog.get_course (cat : Catalog) (coid : CourseID) : Option Course :=
  lookupCourse coid cat.courses

/-- `HashMap::remove` (drops the binding for the key). -/
def Catalog.removeCourse (cat : Catalog) (coid : CourseID) : Catalog :=
  ⟨cat.courses.filter (fun p => ¬ p.1 = coid)⟩

/-- `HashMap::insert` (replaces the binding if the key is present,
otherwise adds it). -/
def Catalog.insertCourse (cat : Catalog) (coid : CourseID) (c : Course) : Catalog :=
  if cat.courses.any (fun p => p.1 = coid) then
    ⟨cat.courses.map (fun p => if p.1 = coid then (p.1, c) else p)⟩
  else ⟨cat.courses ++ [(coid, c)]⟩

/-- `get_course_mut` followed by an in-place update, as one functional
operation: apply `f` to the binding at `coid` if present. -/
def Catalog.modifyCourse (cat : Catalog) (coid : CourseID) (f : Course → Course) : Catalog :=
  ⟨cat.courses.map (fun p => if p.1 = coid then (p.1, f p.2) else p)⟩

/-- One iteration of the prerequisite loop inside `Catalog::add_course`
(src/catalog.rs lines 62-71): register a back-reference on the
prerequisite's record, creating a placeholder if absent.  Note the source
adds `coid` — the prerequisite's own identifier — to `post_options`. -/
def Catalog.registerPrereq (cat : Catalog) (coid : CourseID) : Catalog :=
  match cat.get_course coid with
  | some _ => cat.modifyCourse coid (fun c => c.add_postoption coid)
  | none => cat.insertCourse coid ((Course.new coid).add_postoption coid)

/-- Embeds `Catalog::add_course` (src/catalog.rs lines 56-74). -/
def Catalog.add_course (cat : Catalog) (course : Course) : Catalog :=
  let step :=
    match cat.get_course course.coid with
    | some existing =>
      ({ course with post_options := existing.post_options },
        cat.removeCourse course.coid)
    | none => (course, cat)
  let course := step.1
  let cat := step.2
  let cat := course.prereqs.flatten.foldl Catalog.registerPrereq cat
  cat.insertCourse course.coid course

/-! ### Semester and Schedule (src/schedule.rs) -/

/-- Embeds `struct Semester { courses: HashSet<CourseID>, time: SemTime }`. -/
structure Semester where
  courses : List CourseID
  time : SemTime
deriving DecidableEq, Repr

/-- Embeds `Semester::contains`. -/
def Semester.contains (sem : Semester) (coid : CourseID) : Bool :=
  decide (coid ∈ sem.courses)

/-- Embeds `Semester::add_course`: `HashSet::insert`. -/
def Semester.scAdd (sem : Semester) (coid : CourseID) : Semester :=
  { sem with courses :=
      if coid ∈ sem.courses then sem.courses else sem.courses ++ [coid] }

/-- Embeds `struct Schedule { semesters: BTreeMap<SemTime, Semester> }`
as an association list; the Rust `BTreeMap` has unique keys in ascending
`SemTime` order, and the keys are always the semesters' own times
(`add_semester` inserts at `sem.time`). -/
structure Schedule where
  semesters : List (SemTime × Semester)
deriving DecidableEq, Repr

/-- The key list of the schedule, in map order. -/
def Schedule.times (s : Schedule) : List SemTime := s.semesters.map (fun e => e.1)

/-- The scan of `Schedule::get_time`: return the key of the first entry
whose semester contains the course. -/
def findTime (coid : CourseID) : List (SemTime × Semester) → Option SemTime
  | [] => none
  | e :: rest => if e.2.contains coid then some e.1 else findTime coid rest

/-- Embeds `Schedule::get_time` (src/schedule.rs lines 373-381): the key
of the first semester containing the course. -/
def Schedule.get_time (s : Schedule) (coid : CourseID) : Option SemTime :=
  findTime coid s.semesters

/-- Embeds `Schedule::contains` (src/schedule.rs lines 349-351). -/
def Schedule.contains (s : Schedule) (coid : CourseID) : Bool :=
  (s.get_time coid).isSome

/-- The entrywise update of `Schedule::add_course`: insert the course
into the entry at the given key, leave other entries alone. -/
def scAddEntry (sem : SemTime) (coid : CourseID) (e : SemTime × Semester) :
    SemTime × Semester :=
  if e.1 = sem then (e.1, e.2.scAdd coid) else e

/-- Embeds `Schedule::add_course` (src/schedule.rs lines 240-248) without
the returned success flag (ignored by `try_add`): inserts the course into
the semester at the given key, if that key exists. -/
def Schedule.scAdd (s : Schedule) (sem : SemTime) (coid : CourseID) : Schedule :=
  ⟨s.semesters.map (scAddEntry sem coid)⟩

/-- The corequisite-group scan of `Schedule::try_add` (src/schedule.rs
lines 390-404): returns the pair
(`contains_at_least_one`, `valid_time`) computed by the loop, including
its early `break` once a member is found at the target time. -/
def coreqScan (s : Schedule) (sem : SemTime) : List CourseID → Bool × Bool
  | [] => (false, false)
  | c :: rest =>
    match s.get_time c with
    | some t =>
      if t = sem then (true, true)
      else (true, (coreqScan s sem rest).2)
    | none => coreqScan s sem rest

/-- A corequisite group passes the `try_add` check when
`contains_at_least_one == valid_time` (src/schedule.rs line 406). -/
def coreqGroupOK (s : Schedule) (sem : SemTime) (g : List CourseID) : Bool :=
  (coreqScan s sem g).1 == (coreqScan s sem g).2

/-- The prerequisite-group check of `Schedule::try_add` (src/schedule.rs
lines 411-420): some member sits in a semester strictly earlier than
`sem`. -/
def prereqGroupOK (s : Schedule) (sem : SemTime) (g : List CourseID) : Bool :=
  g.any (fun p =>
    (s.semesters.filter (fun e => SemTime.blt e.1 sem)).any
      (fun e => e.2.contains p))

/-- Embeds `Schedule::try_add` (src/schedule.rs lines 383-425).  The Rust
code `unwrap`s the catalog lookup (its callers guarantee presence); the
embedding returns `none` on that unreachable path. -/
def Schedule.try_add (s : Schedule) (coid : CourseID) (sem : SemTime)
    (cat : Catalog) : Option Schedule :=
  if s.contains coid then some s
  else
    match cat.get_course coid with
    | none => none
    | some course =>
      if course.coreqs.all (fun g => coreqGroupOK s sem g) then
        if course.prereqs.all (fun g => prereqGroupOK s sem g) then
          some (s.scAdd sem coid)
        else none
      else none

/-- One requirement-group expansion step shared by the prerequisite and
corequisite phases of `add_course_to_schedule` (src/schedule.rs lines
444-459 and 473-488): for each group member and each candidate schedule,
pass the schedule through if the member is present, otherwise fan out
through `f` (the recursive placement of the member). -/
def expandReq (f : CourseID → Schedule → List Schedule)
    (scheds : List Schedule) (g : List CourseID) : List Schedule :=
  g.flatMap (fun p =>
    scheds.flatMap (fun w => if w.contains p then [w] else f p w))

/-- Embeds `Schedule::add_course_to_schedule` (src/schedule.rs lines
432-491) with explicit fuel (see the header comment): prerequisite
expansion, self-placement at every semester slot, corequisite
expansion. -/
def add_course_to_schedule : Nat → CourseID → Schedule → Catalog → List Schedule
  | 0, _, _, _ => []
  | fuel + 1, coid, sched, cat =>
    match cat.get_course coid with
    | none => []
    | some course =>
      let prereq_scheds := course.prereqs.foldl
        (expandReq (fun p w => add_course_to_schedule fuel p w cat)) [sched]
      let placed := prereq_scheds.flatMap (fun w =>
        w.semesters.filterMap (fun e => w.try_add coid e.1 cat))
      course.coreqs.foldl
        (expandReq (fun p w => add_course_to_schedule fuel p w cat)) placed

/-! ### Properties used to state and prove the claims -/

/-- Pointwise entry extension: same key, courses only added. -/
def SemLe (e e' : SemTime × Semester) : Prop :=
  e.1 = e'.1 ∧ ∀ c, c ∈ e.2.courses → c ∈ e'.2.courses

/-- Schedule extension: entrywise `SemLe` (same number of semesters, same
keys in the same order, every scheduled course kept in place). -/
def Schedule.Ext (s s' : Schedule) : Prop :=
  List.Forall₂ SemLe s.semesters s'.semesters

/-- Number of schedule entries whose semester contains the course. -/
def countOcc (s : Schedule) (c : CourseID) : Nat :=
  (s.semesters.filter (fun e => e.2.contains c)).length

/-- Prop form of the prerequisite check of `try_add`: every prerequisite
group of the course has a member scheduled strictly before `t`. -/
def PrereqSatAt (cat : Catalog) (s : Schedule) (c : CourseID) (t : SemTime) : Prop :=
  ∀ course, cat.get_course c = some course →
    ∀ g ∈ course.prereqs, ∃ p ∈ g, ∃ e ∈ s.semesters,
      SemTime.blt e.1 t = true ∧ p ∈ e.2.courses

/-- The course is placed somewhere and its prerequisite groups are each
satisfied strictly before that placement. -/
def GoodAt (cat : Catalog) (s : Schedule) (c : CourseID) : Prop :=
  ∃ t, s.get_time c = some t ∧ PrereqSatAt cat s c t

/-- Reachability by the insertions the enumeration engine performs: each
step adds one course that is absent from the whole schedule into an
existing semester slot, with the course's prerequisite groups satisfied
strictly earlier than the slot. -/
inductive Evolves (cat : Catalog) : Schedule → Schedule → Prop where
  | refl (s : Schedule) : Evolves cat s s
  | step {s s' : Schedule} (t : SemTime) (c : CourseID) :
      Evolves cat s s' → s'.contains c = false → t ∈ s'.times →
      PrereqSatAt cat s' c t → Evolves cat s (s'.scAdd t c)

/-- The per-course property tracked through the back-reference loop of
`Catalog::add_course`: the catalog has a record for `k` whose
`post_options` contains `k` itself. -/
def HasSelfBackref (cat : Catalog) (k : CourseID) : Prop :=
  ∃ c, cat.get_course k = some c ∧ k ∈ c.post_options

/-! ### Concrete instances used by witnesses and counterexamples -/

def c1X : CourseID := ⟨"XXXX", 1⟩

def c1P : CourseID := ⟨"PPPP", 1⟩

def c1CourseX : Course := { Course.new c1X with prereqs := [[c1P]] }

def c1Cat : Catalog := ⟨[(c1X, c1CourseX), (c1P, Course.new c1P)]⟩

/-- A schedule that already contains `c1X` even though its prerequisite is
nowhere scheduled. -/
def c1Sched : Schedule := ⟨[(SemTime.Fall 0, ⟨[c1X], SemTime.Fall 0⟩)]⟩

def c1wX : CourseID := ⟨"XXXX", 2⟩

def c1wP : CourseID := ⟨"PPPP", 2⟩

def c1wCourseX : Course := { Course.new c1wX with prereqs := [[c1wP]] }

def c1wCat : Catalog := ⟨[(c1wX, c1wCourseX), (c1wP, Course.new c1wP)]⟩

def c1wS : Schedule :=
  ⟨[(SemTime.Fall 0, ⟨[], SemTime.Fall 0⟩),
    (SemTime.Spring 1, ⟨[], SemTime.Spring 1⟩)]⟩

def c1wOut : Schedule :=
  ⟨[(SemTime.Fall 0, ⟨[c1wP], SemTime.Fall 0⟩),
    (SemTime.Spring 1, ⟨[c1wX], SemTime.Spring 1⟩)]⟩

def c4A : CourseID := ⟨"AAAA", 4⟩

def c4B : CourseID := ⟨"BBBB", 4⟩

def c4X : CourseID := ⟨"XXXX", 4⟩

def c4Course : Course := { Course.new c4X with coreqs := [[c4A, c4B]] }

def c4Cat : Catalog := ⟨[(c4X, c4Course)]⟩

/-- `c4A` sits in Fall 0, `c4B` in Spring 1: a mixed corequisite group. -/
def c4Sched : Schedule :=
  ⟨[(SemTime.Fall 0, ⟨[c4A], SemTime.Fall 0⟩),
    (SemTime.Spring 1, ⟨[c4B], SemTime.Spring 1⟩)]⟩

def c4wA : CourseID := ⟨"AAAA", 5⟩

def c4wX : CourseID := ⟨"XXXX", 5⟩

def c4wCourse : Course := { Course.new c4wX with coreqs := [[c4wA]] }

def c4wCat : Catalog := ⟨[(c4wX, c4wCourse)]⟩

def c4wSched : Schedule := ⟨[(SemTime.Fall 0, ⟨[c4wA], SemTime.Fall 0⟩)]⟩

def c5Id : CourseID := ⟨"NOOP", 1⟩

def c5Sched : Schedule := ⟨[(SemTime.Fall 0, ⟨[c5Id], SemTime.Fall 0⟩)]⟩

def c6Id : CourseID := ⟨"MISS", 1⟩

def c6Sched : Schedule := ⟨[(SemTime.Fall 0, ⟨[], SemTime.Fall 0⟩)]⟩

def c8Id : CourseID := ⟨"REIN", 1⟩

def c8Dep : CourseID := ⟨"DEPS", 1⟩

def c8Old : Course :=
  { Course.new c8Id with name := "old", post_options := [c8Dep] }

def c8New : Course := { Course.new c8Id with name := "new" }

def c8Cat : Catalog := ⟨[(c8Id, c8Old)]⟩

def c9X : CourseID := ⟨"SELF", 1⟩

/-- A course listing itself as its own prerequisite. -/
def c9Course : Course := { Course.new c9X with prereqs := [[c9X]] }

def c9wC : CourseID := ⟨"DEPC", 1⟩

def c9wP : CourseID := ⟨"PREP", 1⟩

def c9wCourse : Course := { Course.new c9wC with prereqs := [[c9wP]] }

def c10X : CourseID := ⟨"FRAM", 1⟩

def c10Other : CourseID := ⟨"OTHR", 1⟩

def c10Cat : Catalog := ⟨[(c10X, Course.new c10X)]⟩

def c10S : Schedule :=
  ⟨[(SemTime.Fall 0, ⟨[c10Other], SemTime.Fall 0⟩),
    (SemTime.Spring 1, ⟨[], SemTime.Spring 1⟩)]⟩

def c10Out1 : Schedule :=
  ⟨[(SemTime.Fall 0, ⟨[c10Other, c10X], SemTime.Fall 0⟩),
    (SemTime.Spring 1, ⟨[], SemTime.Spring 1⟩)]⟩

/-! ### Parsing and rendering lemmas (claims C2, C3) -/

/-- Spec-side transcription of claim C3's parser description, used as the
refinement target: fail exactly when the length is neither 8 nor 9, a
subject character falls outside `A`–`Z`, or the last four characters do
not parse as an unsigned integer in range; otherwise take the first four
characters as the subject and the parsed value as the code. -/
def CourseID.fromSpec (s : String) : Option CourseID :=
  let cs := s.data
  if (cs.length = 8 ∨ cs.length = 9) ∧ (∀ c ∈ cs.take 4, 'A' ≤ c ∧ c ≤ 'Z') then
    match parseU16 (cs.drop (cs.length - 4)) with
    | some code => some ⟨⟨cs.take 4⟩, code⟩
    | none => none
  else none

theorem digitChar_isDigit {k : Nat} (h : k ≤ 9) : (digitChar k).isDigit = true := by
  interval_cases k <;> decide

theorem digitChar_toNat {k : Nat} (h : k ≤ 9) : (digitChar k).toNat - 48 = k := by
  interval_cases k <;> decide

theorem digitChar_ne_plus {k : Nat} (h : k ≤ 9) : ¬ digitChar k = '+' := by
  interval_cases k <;> decide

theorem natDigitsAux_stable :
    ∀ f₁ f₂ n, n < f₁ → n < f₂ → natDigitsAux f₁ n = natDigitsAux f₂ n := by
  intro f₁
  induction f₁ with
  | zero => intro f₂ n h₁ _; omega
  | succ f₁ ih =>
    intro f₂ n h₁ h₂
    match f₂, h₂ with
    | f₂ + 1, h₂ =>
      simp only [natDigitsAux]
      by_cases hn : n < 10
      · simp [hn]
      · simp only [if_neg hn]
        have : natDigitsAux f₁ (n / 10) = natDigitsAux f₂ (n / 10) :=
          ih f₂ (n / 10) (by omega) (by omega)
        rw [this]

theorem natDigitsAux_step {fuel n : Nat} (hfuel : n < fuel) (hn : 10 ≤ n) :
    natDigitsAux fuel n
      = natDigitsAux (n / 10 + 1) (n / 10) ++ [digitChar (n % 10)] := by
  match fuel, hfuel with
  | fuel + 1, hfuel =>
    conv_lhs => rw [natDigitsAux]
    rw [if_neg (by omega : ¬ n < 10)]
    rw [natDigitsAux_stable fuel (n / 10 + 1) (n / 10) (by omega) (by omega)]

theorem natDigitsAux_base {fuel n : Nat} (hfuel : 0 < fuel) (hn : n < 10) :
    natDigitsAux fuel n = [digitChar n] := by
  match fuel, hfuel with
  | fuel + 1, _ => simp only [natDigitsAux, if_pos hn]

theorem natRepr_four_digits {n : Nat} (h1 : 1000 ≤ n) (h2 : n ≤ 9999) :
    natRepr n = [digitChar (n / 1000), digitChar (n / 100 % 10),
      digitChar (n / 10 % 10), digitChar (n % 10)] := by
  rw [natRepr]
  rw [natDigitsAux_step (by omega) (by omega)]
  rw [natDigitsAux_step (by omega) (by omega)]
  rw [natDigitsAux_step (by omega) (by omega)]
  rw [natDigitsAux_base (by omega) (by omega)]
  rw [show n / 10 / 10 = n / 100 by omega, show n / 100 / 10 = n / 1000 by omega]
  simp

theorem parseU16_four_digits {a b c d : Nat}
    (ha : a ≤ 9) (hb : b ≤ 9) (hc : c ≤ 9) (hd : d ≤ 9) :
    parseU16 [digitChar a, digitChar b, digitChar c, digitChar d]
      = some (a * 1000 + b * 100 + c * 10 + d) := by
  have hstrip : stripPlus [digitChar a, digitChar b, digitChar c, digitChar d]
      = [digitChar a, digitChar b, digitChar c, digitChar d] := by
    simp [stripPlus, digitChar_ne_plus ha]
  simp only [parseU16, hstrip]
  rw [if_neg (by simp)]
  rw [if_pos]
  · rw [if_pos]
    · congr 1
      simp only [List.foldl]
      rw [digitChar_toNat ha, digitChar_toNat hb, digitChar_toNat hc, digitChar_toNat hd]
      ring
    · simp only [List.foldl]
      rw [digitChar_toNat ha, digitChar_toNat hb, digitChar_toNat hc, digitChar_toNat hd]
      omega
  · simp [List.all_eq_true, digitChar_isDigit, ha, hb, hc, hd]

theorem length_four_exists {l : List Char} (h : l.length = 4) :
    ∃ a b c d, l = [a, b, c, d] := by
  match l, h with
  | [a, b, c, d], _ => exact ⟨a, b, c, d, rfl⟩

theorem courseID_render_data (id : CourseID) :
    (CourseID.render id).data = id.subj.data ++ ' ' :: natRepr id.code := by
  simp only [CourseID.render, String.data_append]
  simp

/-- C2 (amended): for every CourseID whose subject is exactly four
uppercase ASCII letters and whose code lies in 1000..9999 (so that it
renders as exactly four digits), parsing the rendered canonical form
yields the identifier back: `CourseID::from(format(id)) = Some(id)`. -/
theorem courseID_roundtrip (id : CourseID)
    (hlen : id.subj.data.length = 4)
    (hup : ∀ ch ∈ id.subj.data, 'A' ≤ ch ∧ ch ≤ 'Z')
    (hlo : 1000 ≤ id.code) (hhi : id.code ≤ 9999) :
    CourseID.fromStr (CourseID.render id) = some id := by
  obtain ⟨a, b, c, d, hsub⟩ := length_four_exists hlen
  have hdata : (CourseID.render id).data
      = [a, b, c, d, ' ', digitChar (id.code / 1000), digitChar (id.code / 100 % 10),
         digitChar (id.code / 10 % 10), digitChar (id.code % 10)] := by
    rw [courseID_render_data, hsub, natRepr_four_digits hlo hhi]
    rfl
  have hstr : CourseID.render id
      = ⟨[a, b, c, d, ' ', digitChar (id.code / 1000), digitChar (id.code / 100 % 10),
          digitChar (id.code / 10 % 10), digitChar (id.code % 10)]⟩ :=
    congrArg String.mk hdata
  have hall : (([a, b, c, d] : List Char).all fun c => decide ('A' ≤ c ∧ c ≤ 'Z')) = true := by
    simp only [List.all_eq_true]
    intro ch hch
    refine decide_eq_true (hup ch ?_)
    rw [hsub]
    exact hch
  have hdrop : ([a, b, c, d, ' ', digitChar (id.code / 1000), digitChar (id.code / 100 % 10),
      digitChar (id.code / 10 % 10), digitChar (id.code % 10)] : List Char).drop
        ([a, b, c, d, ' ', digitChar (id.code / 1000), digitChar (id.code / 100 % 10),
          digitChar (id.code / 10 % 10), digitChar (id.code % 10)].length - 4)
      = [digitChar (id.code / 1000), digitChar (id.code / 100 % 10),
         digitChar (id.code / 10 % 10), digitChar (id.code % 10)] := rfl
  have hsum : id.code / 1000 * 1000 + id.code / 100 % 10 * 100
      + id.code / 10 % 10 * 10 + id.code % 10 = id.code := by omega
  have htake : ([a, b, c, d, ' ', digitChar (id.code / 1000), digitChar (id.code / 100 % 10),
      digitChar (id.code / 10 % 10), digitChar (id.code % 10)] : List Char).take 4
      = [a, b, c, d] := rfl
  rw [hstr]
  simp only [CourseID.fromStr]
  rw [if_neg (by simp)]
  rw [hdrop, parseU16_four_digits (by omega) (by omega) (by omega) (by omega), hsum]
  simp only [htake, hall, if_true]
  rw [← hsub]

theorem fromStr_eq_fromSpec (s : String) : CourseID.fromStr s = CourseID.fromSpec s := by
  simp only [CourseID.fromStr, CourseID.fromSpec]
  by_cases hlen : s.data.length = 8 ∨ s.data.length = 9
  · rw [if_neg (by tauto)]
    by_cases hup : ∀ c ∈ s.data.take 4, 'A' ≤ c ∧ c ≤ 'Z'
    · rw [if_pos ⟨hlen, hup⟩]
      have hall : ((s.data.take 4).all fun c => decide ('A' ≤ c ∧ c ≤ 'Z')) = true := by
        simp only [List.all_eq_true]
        intro ch hch
        exact decide_eq_true (hup ch hch)
      cases hp : parseU16 (s.data.drop (s.data.length - 4)) with
      | none => rfl
      | some code =>
        show (if ((s.data.take 4).all fun c => decide ('A' ≤ c ∧ c ≤ 'Z')) = true
            then some (⟨⟨s.data.take 4⟩, code⟩ : CourseID) else none)
          = some ⟨⟨s.data.take 4⟩, code⟩
        rw [if_pos hall]
    · rw [if_neg (by tauto)]
      have hall : ((s.data.take 4).all fun c => decide ('A' ≤ c ∧ c ≤ 'Z')) = false := by
        rw [List.all_eq_false]
        push_neg at hup
        obtain ⟨ch, hch, hbad⟩ := hup
        exact ⟨ch, hch, by simpa using hbad⟩
      cases hp : parseU16 (s.data.drop (s.data.length - 4)) with
      | none => rfl
      | some code =>
        show (if ((s.data.take 4).all fun c => decide ('A' ≤ c ∧ c ≤ 'Z')) = true
            then some (⟨⟨s.data.take 4⟩, code⟩ : CourseID) else none)
          = none
        rw [if_neg (by rw [hall]; decide)]
  · rw [if_pos (by tauto), if_neg (by tauto)]

/-! ### SemTime order lemmas (claim C7) -/

theorem SemTime.eq_of_year_seasonRank {a b : SemTime}
    (hy : a.year = b.year) (hs : a.seasonRank = b.seasonRank) : a = b := by
  cases a <;> cases b <;> simp_all [SemTime.year, SemTime.seasonRank]

theorem SemTime.blt_iff {a b : SemTime} :
    SemTime.blt a b = true ↔
      (a.year < b.year ∨ (a.year = b.year ∧ a.seasonRank < b.seasonRank)) := by
  unfold SemTime.blt SemTime.pcmp intCmp natCmp
  have hbeq : ∀ o : Ordering, (o == Ordering.lt) = true ↔ o = Ordering.lt := by
    intro o; cases o <;> decide
  rw [hbeq]
  by_cases hab : a = b
  · subst hab; simp
  · rw [if_neg hab]
    by_cases hy : a.year = b.year
    · rw [if_neg (by simp [hy])]
      have hne : a.seasonRank ≠ b.seasonRank :=
        fun h => hab (SemTime.eq_of_year_seasonRank hy h)
      by_cases hs : a.seasonRank < b.seasonRank
      · simp [hs, hy]
      · simp [hs, hne, hy]
    · rw [if_pos hy]
      by_cases hlt : a.year < b.year
      · simp [hlt]
      · simp [hlt, hy]

/-! ### Catalog lemmas (claims C8, C9) -/

theorem lookupCourse_map_replace (coid : CourseID) (c : Course) :
    ∀ l : List (CourseID × Course), (l.any (fun p => p.1 = coid)) = true →
      lookupCourse coid (l.map (fun p => if p.1 = coid then (p.1, c) else p))
        = some c := by
  intro l
  induction l with
  | nil => intro h; simp at h
  | cons q l ih =>
    intro h
    by_cases hq : q.1 = coid
    · rw [List.map_cons, if_pos hq, lookupCourse, if_pos hq]
    · rw [List.map_cons, if_neg hq, lookupCourse, if_neg hq]
      refine ih ?_
      simpa [hq] using h

theorem lookupCourse_append_right (coid : CourseID) (c : Course) :
    ∀ l : List (CourseID × Course), (l.any (fun p => p.1 = coid)) = false →
      lookupCourse coid (l ++ [(coid, c)]) = some c := by
  intro l
  induction l with
  | nil => simp [lookupCourse]
  | cons q l ih =>
    intro h
    simp only [List.any_cons, Bool.or_eq_false_iff] at h
    rw [List.cons_append, lookupCourse,
      if_neg (by simpa using h.1)]
    exact ih h.2

theorem get_insertCourse_self (cat : Catalog) (coid : CourseID) (c : Course) :
    (cat.insertCourse coid c).get_course coid = some c := by
  unfold Catalog.insertCourse Catalog.get_course
  by_cases h : (cat.courses.any (fun p => p.1 = coid)) = true
  · rw [if_pos h]
    exact lookupCourse_map_replace coid c cat.courses h
  · rw [if_neg h]
    refine lookupCourse_append_right coid c cat.courses ?_
    revert h
    cases cat.courses.any (fun p => p.1 = coid) <;> simp

theorem lookupCourse_map_keyfix {k coid : CourseID}
    (g : Course → Course) (h : k ≠ coid) :
    ∀ l : List (CourseID × Course),
      lookupCourse k (l.map (fun p => if p.1 = coid then (p.1, g p.2) else p))
        = lookupCourse k l := by
  intro l
  induction l with
  | nil => rfl
  | cons q l ih =>
    by_cases hq : q.1 = coid
    · rw [List.map_cons, if_pos hq, lookupCourse, lookupCourse]
      rw [if_neg (by rw [hq]; exact fun hk => h hk.symm),
        if_neg (by rw [hq]; exact fun hk => h hk.symm)]
      exact ih
    · rw [List.map_cons, if_neg hq, lookupCourse, lookupCourse]
      by_cases hk : q.1 = k
      · rw [if_pos hk, if_pos hk]
      · rw [if_neg hk, if_neg hk]
        exact ih

theorem lookupCourse_append_ne {k coid : CourseID} (c : Course) (h : k ≠ coid) :
    ∀ l : List (CourseID × Course),
      lookupCourse k (l ++ [(coid, c)]) = lookupCourse k l := by
  intro l
  induction l with
  | nil =>
    simp only [List.nil_append, lookupCourse]
    rw [if_neg (fun hk : coid = k => h hk.symm)]
  | cons q l ih =>
    rw [List.cons_append, lookupCourse, lookupCourse]
    by_cases hk : q.1 = k
    · rw [if_pos hk, if_pos hk]
    · rw [if_neg hk, if_neg hk]
      exact ih

theorem get_insertCourse_ne (cat : Catalog) {k coid : CourseID} (c : Course)
    (h : k ≠ coid) : (cat.insertCourse coid c).get_course k = cat.get_course k := by
  unfold Catalog.insertCourse Catalog.get_course
  by_cases hany : (cat.courses.any (fun p => p.1 = coid)) = true
  · rw [if_pos hany]
    exact lookupCourse_map_keyfix (fun _ => c) h cat.courses
  · rw [if_neg hany]
    exact lookupCourse_append_ne c h cat.courses

theorem lookupCourse_map_modify (coid : CourseID) (g : Course → Course) :
    ∀ l : List (CourseID × Course),
      lookupCourse coid (l.map (fun p => if p.1 = coid then (p.1, g p.2) else p))
        = (lookupCourse coid l).map g := by
  intro l
  induction l with
  | nil => rfl
  | cons q l ih =>
    by_cases hq : q.1 = coid
    · rw [List.map_cons, if_pos hq, lookupCourse, if_pos hq, lookupCourse, if_pos hq]
      rfl
    · rw [List.map_cons, if_neg hq, lookupCourse, if_neg hq, lookupCourse, if_neg hq]
      exact ih

theorem get_modifyCourse_self (cat : Catalog) (coid : CourseID) (f : Course → Course) :
    (cat.modifyCourse coid f).get_course coid = (cat.get_course coid).map f := by
  unfold Catalog.modifyCourse Catalog.get_course
  exact lookupCourse_map_modify coid f cat.courses

theorem get_modifyCourse_ne (cat : Catalog) {k coid : CourseID} (f : Course → Course)
    (h : k ≠ coid) : (cat.modifyCourse coid f).get_course k = cat.get_course k := by
  unfold Catalog.modifyCourse Catalog.get_course
  exact lookupCourse_map_keyfix f h cat.courses

theorem mem_add_postoption_self (c : Course) (coid : CourseID) :
    coid ∈ (c.add_postoption coid).post_options := by
  unfold Course.add_postoption
  by_cases h : coid ∈ c.post_options
  · simp [h]
  · simp [h]

theorem registerPrereq_self (cat : Catalog) (p : CourseID) :
    HasSelfBackref (cat.registerPrereq p) p := by
  unfold Catalog.registerPrereq
  cases hg : cat.get_course p with
  | some c =>
    refine ⟨c.add_postoption p, ?_, mem_add_postoption_self c p⟩
    rw [get_modifyCourse_self, hg]
    rfl
  | none =>
    refine ⟨(Course.new p).add_postoption p, ?_, mem_add_postoption_self _ p⟩
    exact get_insertCourse_self cat p _

theorem registerPrereq_preserves {cat : Catalog} {k : CourseID} (q : CourseID)
    (h : HasSelfBackref cat k) : HasSelfBackref (cat.registerPrereq q) k := by
  by_cases hk : k = q
  · subst hk
    exact registerPrereq_self cat k
  · obtain ⟨c, hc, hmem⟩ := h
    unfold Catalog.registerPrereq
    cases hg : cat.get_course q with
    | some c' =>
      exact ⟨c, by rw [get_modifyCourse_ne cat _ hk]; exact hc, hmem⟩
    | none =>
      exact ⟨c, by rw [get_insertCourse_ne cat _ hk]; exact hc, hmem⟩

theorem foldl_registerPrereq_preserves {k : CourseID} :
    ∀ (l : List CourseID) (cat : Catalog), HasSelfBackref cat k →
      HasSelfBackref (l.foldl Catalog.registerPrereq cat) k := by
  intro l
  induction l with
  | nil => intro cat h; exact h
  | cons q rest ih =>
    intro cat h
    exact ih _ (registerPrereq_preserves q h)

theorem foldl_registerPrereq_mem {k : CourseID} :
    ∀ (l : List CourseID) (cat : Catalog), k ∈ l →
      HasSelfBackref (l.foldl Catalog.registerPrereq cat) k := by
  intro l
  induction l with
  | nil => intro cat h; simp at h
  | cons q rest ih =>
    intro cat h
    rcases List.mem_cons.mp h with hk | hk
    · subst hk
      exact foldl_registerPrereq_preserves rest _ (registerPrereq_self cat k)
    · exact ih _ hk

/-! ### Semester and Schedule basics -/

theorem Semester.contains_iff {sem : Semester} {c : CourseID} :
    sem.contains c = true ↔ c ∈ sem.courses := by
  simp [Semester.contains]

theorem Semester.mem_scAdd {sem : Semester} {c c' : CourseID} :
    c ∈ (sem.scAdd c').courses ↔ c = c' ∨ c ∈ sem.courses := by
  unfold Semester.scAdd
  by_cases h : c' ∈ sem.courses
  · simp only [if_pos h]
    constructor
    · exact Or.inr
    · rintro (rfl | hc)
      · exact h
      · exact hc
  · simp only [if_neg h, List.mem_append, List.mem_singleton]
    tauto

theorem scAddEntry_fst (sem : SemTime) (coid : CourseID) (e : SemTime × Semester) :
    (scAddEntry sem coid e).1 = e.1 := by
  unfold scAddEntry
  split <;> rfl

theorem mem_scAddEntry_iff {sem : SemTime} {coid x : CourseID} {e : SemTime × Semester} :
    x ∈ (scAddEntry sem coid e).2.courses ↔
      (e.1 = sem ∧ x = coid) ∨ x ∈ e.2.courses := by
  unfold scAddEntry
  by_cases h : e.1 = sem
  · simp [h, Semester.mem_scAdd]
  · simp [h]

theorem scAddEntry_contains_ne {sem : SemTime} {coid x : CourseID}
    {e : SemTime × Semester} (h : x ≠ coid) :
    (scAddEntry sem coid e).2.contains x = e.2.contains x := by
  unfold Semester.contains
  rw [decide_eq_decide]
  rw [mem_scAddEntry_iff]
  constructor
  · rintro (⟨_, hx⟩ | hx)
    · exact absurd hx h
    · exact hx
  · exact Or.inr

theorem findTime_isSome_iff (c : CourseID) :
    ∀ l : List (SemTime × Semester),
      (findTime c l).isSome = true ↔ ∃ e ∈ l, c ∈ e.2.courses := by
  intro l
  induction l with
  | nil => simp [findTime]
  | cons e l ih =>
    rw [findTime]
    by_cases h : e.2.contains c = true
    · simp only [if_pos h]
      simp only [Option.isSome_some, true_iff]
      exact ⟨e, by simp, Semester.contains_iff.mp h⟩
    · rw [if_neg h]
      rw [ih]
      constructor
      · rintro ⟨e', he', hm⟩
        exact ⟨e', by simp [he'], hm⟩
      · rintro ⟨e', he', hm⟩
        rcases List.mem_cons.mp he' with rfl | he'
        · exact absurd (Semester.contains_iff.mpr hm) h
        · exact ⟨e', he', hm⟩

theorem contains_iff_exists {s : Schedule} {c : CourseID} :
    s.contains c = true ↔ ∃ e ∈ s.semesters, c ∈ e.2.courses := by
  unfold Schedule.contains Schedule.get_time
  exact findTime_isSome_iff c s.semesters

theorem not_contains_forall {s : Schedule} {c : CourseID}
    (h : s.contains c = false) : ∀ e ∈ s.semesters, c ∉ e.2.courses := by
  intro e he hm
  have : s.contains c = true := contains_iff_exists.mpr ⟨e, he, hm⟩
  rw [h] at this
  cases this

theorem findTime_map_scAddEntry_ne {c coid : CourseID} (sem : SemTime)
    (h : c ≠ coid) :
    ∀ l : List (SemTime × Semester),
      findTime c (l.map (scAddEntry sem coid)) = findTime c l := by
  intro l
  induction l with
  | nil => rfl
  | cons e l ih =>
    rw [List.map_cons, findTime, findTime, scAddEntry_contains_ne h, scAddEntry_fst]
    by_cases hc : e.2.contains c = true
    · rw [if_pos hc, if_pos hc]
    · rw [if_neg hc, if_neg hc]
      exact ih

theorem get_time_scAdd_ne {s : Schedule} {c coid : CourseID} {sem : SemTime}
    (h : c ≠ coid) : (s.scAdd sem coid).get_time c = s.get_time c := by
  unfold Schedule.get_time Schedule.scAdd
  exact findTime_map_scAddEntry_ne sem h s.semesters

theorem contains_scAdd_ne {s : Schedule} {c coid : CourseID} {sem : SemTime}
    (h : c ≠ coid) : (s.scAdd sem coid).contains c = s.contains c := by
  unfold Schedule.contains
  rw [get_time_scAdd_ne h]

theorem findTime_map_scAddEntry_self {coid : CourseID} {sem : SemTime} :
    ∀ l : List (SemTime × Semester), (∀ e ∈ l, coid ∉ e.2.courses) →
      sem ∈ l.map (fun e => e.1) →
      findTime coid (l.map (scAddEntry sem coid)) = some sem := by
  intro l
  induction l with
  | nil => intro _ h; simp at h
  | cons e l ih =>
    intro hnot hmem
    rw [List.map_cons, findTime]
    by_cases he : e.1 = sem
    · rw [if_pos ?_]
      · rw [scAddEntry_fst, he]
      · rw [Semester.contains_iff, mem_scAddEntry_iff]
        exact Or.inl ⟨he, rfl⟩
    · have hentry : scAddEntry sem coid e = e := by
        unfold scAddEntry
        rw [if_neg he]
      rw [hentry]
      rw [if_neg (fun hc => hnot e (by simp) (Semester.contains_iff.mp hc))]
      refine ih (fun e' he' => hnot e' (by simp [he'])) ?_
      rw [List.map_cons] at hmem
      rcases List.mem_cons.mp hmem with hm | hm
      · exact absurd hm.symm he
      · exact hm

theorem get_time_scAdd_self {s : Schedule} {coid : CourseID} {sem : SemTime}
    (h : s.contains coid = false) (hmem : sem ∈ s.times) :
    (s.scAdd sem coid).get_time coid = some sem := by
  unfold Schedule.get_time Schedule.scAdd
  exact findTime_map_scAddEntry_self s.semesters (not_contains_forall h) hmem

theorem contains_scAdd_self {s : Schedule} {coid : CourseID} {sem : SemTime}
    (h : s.contains coid = false) (hmem : sem ∈ s.times) :
    (s.scAdd sem coid).contains coid = true := by
  unfold Schedule.contains
  rw [get_time_scAdd_self h hmem]
  rfl

/-! ### Extension order and reachable schedules -/

theorem Ext.refl (s : Schedule) : Schedule.Ext s s := by
  unfold Schedule.Ext
  rw [List.forall₂_same]
  intro e _
  exact ⟨rfl, fun _ h => h⟩

theorem forall₂_semle_trans {l₁ l₂ l₃ : List (SemTime × Semester)}
    (h₁ : List.Forall₂ SemLe l₁ l₂) (h₂ : List.Forall₂ SemLe l₂ l₃) :
    List.Forall₂ SemLe l₁ l₃ := by
  induction h₁ generalizing l₃ with
  | nil =>
    cases h₂
    exact List.Forall₂.nil
  | cons hee hll ih =>
    cases h₂ with
    | cons hee' hll' =>
      exact List.Forall₂.cons
        ⟨hee.1.trans hee'.1, fun c hc => hee'.2 c (hee.2 c hc)⟩ (ih hll')

theorem Ext.trans {s₁ s₂ s₃ : Schedule}
    (h₁ : Schedule.Ext s₁ s₂) (h₂ : Schedule.Ext s₂ s₃) : Schedule.Ext s₁ s₃ :=
  forall₂_semle_trans h₁ h₂

theorem forall₂_semle_map_scAddEntry (sem : SemTime) (coid : CourseID) :
    ∀ l : List (SemTime × Semester),
      List.Forall₂ SemLe l (l.map (scAddEntry sem coid)) := by
  intro l
  induction l with
  | nil => exact List.Forall₂.nil
  | cons e l ih =>
    refine List.Forall₂.cons ⟨(scAddEntry_fst sem coid e).symm, ?_⟩ ih
    intro c hc
    rw [mem_scAddEntry_iff]
    exact Or.inr hc

theorem Ext.scAdd (s : Schedule) (sem : SemTime) (coid : CourseID) :
    Schedule.Ext s (s.scAdd sem coid) :=
  forall₂_semle_map_scAddEntry sem coid s.semesters

theorem forall₂_semle_keys {l l' : List (SemTime × Semester)}
    (h : List.Forall₂ SemLe l l') :
    l.map (fun e => e.1) = l'.map (fun e => e.1) := by
  induction h with
  | nil => rfl
  | cons hee _ ih => simp [hee.1, ih]

theorem Ext.times_eq {s s' : Schedule} (h : Schedule.Ext s s') :
    s.times = s'.times :=
  forall₂_semle_keys h

theorem forall₂_semle_mem_mono {l l' : List (SemTime × Semester)}
    (h : List.Forall₂ SemLe l l') {e : SemTime × Semester} {c : CourseID}
    (he : e ∈ l) (hc : c ∈ e.2.courses) :
    ∃ e' ∈ l', e'.1 = e.1 ∧ c ∈ e'.2.courses := by
  induction h with
  | nil => cases he
  | cons hee hll ih =>
    rcases List.mem_cons.mp he with rfl | he'
    · exact ⟨_, by simp, hee.1.symm, hee.2 c hc⟩
    · obtain ⟨e', he'', hk, hm⟩ := ih he'
      exact ⟨e', by simp [he''], hk, hm⟩

theorem Ext.mem_mono {s s' : Schedule} (h : Schedule.Ext s s')
    {e : SemTime × Semester} {c : CourseID}
    (he : e ∈ s.semesters) (hc : c ∈ e.2.courses) :
    ∃ e' ∈ s'.semesters, e'.1 = e.1 ∧ c ∈ e'.2.courses :=
  forall₂_semle_mem_mono h he hc

theorem Ext.contains_mono {s s' : Schedule} (h : Schedule.Ext s s')
    {c : CourseID} (hc : s.contains c = true) : s'.contains c = true := by
  obtain ⟨e, he, hm⟩ := contains_iff_exists.mp hc
  obtain ⟨e', he', _, hm'⟩ := Ext.mem_mono h he hm
  exact contains_iff_exists.mpr ⟨e', he', hm'⟩

theorem Evolves.ext {cat : Catalog} {s s' : Schedule}
    (h : Evolves cat s s') : Schedule.Ext s s' := by
  induction h with
  | refl => exact Ext.refl _
  | step t c _ _ _ _ ih => exact Ext.trans ih (Ext.scAdd _ t c)

theorem Evolves.timesEq {cat : Catalog} {s s' : Schedule}
    (h : Evolves cat s s') : s'.times = s.times :=
  (Ext.times_eq h.ext).symm

theorem Evolves.containsMono {cat : Catalog} {s s' : Schedule}
    (h : Evolves cat s s') {c : CourseID} (hc : s.contains c = true) :
    s'.contains c = true :=
  Ext.contains_mono h.ext hc

theorem Evolves.chain {cat : Catalog} {s₁ s₂ s₃ : Schedule}
    (h₁ : Evolves cat s₁ s₂) (h₂ : Evolves cat s₂ s₃) : Evolves cat s₁ s₃ := by
  induction h₂ with
  | refl => exact h₁
  | step t c _ hnc ht hsat ih => exact Evolves.step t c ih hnc ht hsat

/-! ### Occurrence counting -/

theorem countOcc_eq_zero {s : Schedule} {c : CourseID}
    (h : s.contains c = false) : countOcc s c = 0 := by
  unfold countOcc
  rw [List.length_eq_zero, List.filter_eq_nil_iff]
  intro e he hc
  exact not_contains_forall h e he (Semester.contains_iff.mp hc)

theorem countOcc_map_scAdd_ne {c coid : CourseID} (sem : SemTime) (h : c ≠ coid) :
    ∀ l : List (SemTime × Semester),
      ((l.map (scAddEntry sem coid)).filter (fun e => e.2.contains c)).length
        = (l.filter (fun e => e.2.contains c)).length := by
  intro l
  induction l with
  | nil => rfl
  | cons e l ih =>
    rw [List.map_cons, List.filter_cons, List.filter_cons, scAddEntry_contains_ne h]
    by_cases hc : e.2.contains c = true
    · simp only [hc, if_true, List.length_cons, ih]
    · simp only [Bool.not_eq_true] at hc
      simp only [hc, Bool.false_eq_true, if_false, ih]

theorem countOcc_scAdd_ne {s : Schedule} {c coid : CourseID} (h : c ≠ coid)
    (sem : SemTime) : countOcc (s.scAdd sem coid) c = countOcc s c := by
  unfold countOcc Schedule.scAdd
  exact countOcc_map_scAdd_ne sem h s.semesters

theorem countOcc_map_scAdd_self {coid : CourseID} (sem : SemTime) :
    ∀ l : List (SemTime × Semester), (∀ e ∈ l, coid ∉ e.2.courses) →
      ((l.map (scAddEntry sem coid)).filter (fun e => e.2.contains coid)).length
        = (l.map (fun e => e.1)).count sem := by
  intro l
  induction l with
  | nil => intro _; rfl
  | cons e l ih =>
    intro hnot
    rw [List.map_cons, List.filter_cons, List.map_cons, List.count_cons]
    by_cases he : e.1 = sem
    · have hcon : (scAddEntry sem coid e).2.contains coid = true := by
        rw [Semester.contains_iff, mem_scAddEntry_iff]
        exact Or.inl ⟨he, rfl⟩
      simp only [hcon, if_true, List.length_cons]
      rw [ih (fun e' he' => hnot e' (by simp [he']))]
      simp [he]
    · have hentry : scAddEntry sem coid e = e := by
        unfold scAddEntry
        rw [if_neg he]
      have hcon : e.2.contains coid = false := by
        rw [← Bool.not_eq_true, Semester.contains_iff]
        exact hnot e (by simp)
      rw [hentry]
      simp only [hcon, Bool.false_eq_true, if_false]
      rw [ih (fun e' he' => hnot e' (by simp [he']))]
      have hne : ¬ (sem == e.1) = true := by
        simp only [beq_iff_eq]
        exact fun hh => he hh.symm
      simp [hne, he]

theorem countOcc_scAdd_self {s : Schedule} {coid : CourseID} (sem : SemTime)
    (h : s.contains coid = false) :
    countOcc (s.scAdd sem coid) coid = s.times.count sem := by
  unfold countOcc Schedule.scAdd Schedule.times
  exact countOcc_map_scAdd_self sem s.semesters (not_contains_forall h)

theorem one_le_countOcc {s : Schedule} {c : CourseID}
    (h : s.contains c = true) : 1 ≤ countOcc s c := by
  obtain ⟨e, he, hm⟩ := contains_iff_exists.mp h
  have hmem : e ∈ s.semesters.filter (fun e => e.2.contains c) :=
    List.mem_filter.mpr ⟨he, Semester.contains_iff.mpr hm⟩
  exact List.length_pos_of_mem hmem

theorem Evolves.countOcc_le_one {cat : Catalog} {s s' : Schedule}
    (h : Evolves cat s s') (hnodup : s.times.Nodup) {c : CourseID}
    (hc : countOcc s c ≤ 1) : countOcc s' c ≤ 1 := by
  induction h with
  | refl => exact hc
  | step t c' hev hnc ht hsat ih =>
    by_cases hcc : c = c'
    · subst hcc
      rw [countOcc_scAdd_self t hnc, hev.timesEq]
      exact List.nodup_iff_count_le_one.mp hnodup t
    · rw [countOcc_scAdd_ne hcc t]
      exact ih

/-! ### Placement soundness -/

theorem PrereqSatAt_mono {cat : Catalog} {s s' : Schedule} {c : CourseID} {t : SemTime}
    (hext : Schedule.Ext s s') (h : PrereqSatAt cat s c t) : PrereqSatAt cat s' c t := by
  intro course hcourse g hg
  obtain ⟨p, hp, e, he, hblt, hmem⟩ := h course hcourse g hg
  obtain ⟨e', he', hk, hm'⟩ := Ext.mem_mono hext he hmem
  refine ⟨p, hp, e', he', ?_, hm'⟩
  rw [hk]
  exact hblt

theorem GoodAt_scAdd_ne {cat : Catalog} {s : Schedule} {c coid : CourseID}
    {sem : SemTime} (hne : c ≠ coid) (h : GoodAt cat s c) :
    GoodAt cat (s.scAdd sem coid) c := by
  obtain ⟨t, hget, hsat⟩ := h
  refine ⟨t, ?_, PrereqSatAt_mono (Ext.scAdd s sem coid) hsat⟩
  rw [get_time_scAdd_ne hne]
  exact hget

theorem Evolves.goodAt {cat : Catalog} {s s' : Schedule} (h : Evolves cat s s')
    {X : CourseID} (h₀ : s.contains X = false) :
    s'.contains X = true → GoodAt cat s' X := by
  induction h with
  | refl =>
    intro h₁
    rw [h₀] at h₁
    cases h₁
  | step t c hev hnc ht hsat ih =>
    intro h₁
    by_cases hX : c = X
    · subst hX
      exact ⟨t, get_time_scAdd_self hnc ht, PrereqSatAt_mono (Ext.scAdd _ t c) hsat⟩
    · have hXc : X ≠ c := fun hh => hX hh.symm
      rw [contains_scAdd_ne hXc] at h₁
      exact GoodAt_scAdd_ne hXc (ih h₁)

theorem try_add_not_contains {s : Schedule} {coid : CourseID} {sem : SemTime}
    {cat : Catalog} {course : Course} (hc : s.contains coid = false)
    (hg : cat.get_course coid = some course) :
    s.try_add coid sem cat =
      (if (course.coreqs.all fun g => coreqGroupOK s sem g) = true then
        if (course.prereqs.all fun g => prereqGroupOK s sem g) = true
        then some (s.scAdd sem coid) else none
      else none) := by
  unfold Schedule.try_add
  rw [if_neg (by rw [hc]; exact fun hh => Bool.false_ne_true hh), hg]

theorem try_add_some_elim {s s₁ : Schedule} {coid : CourseID} {sem : SemTime}
    {cat : Catalog} (h : s.try_add coid sem cat = some s₁) :
    (s.contains coid = true ∧ s₁ = s) ∨
    (s.contains coid = false ∧ s₁ = s.scAdd sem coid ∧
      ∃ course, cat.get_course coid = some course ∧
        course.coreqs.all (fun g => coreqGroupOK s sem g) = true ∧
        course.prereqs.all (fun g => prereqGroupOK s sem g) = true) := by
  unfold Schedule.try_add at h
  by_cases hc : s.contains coid = true
  · rw [if_pos hc] at h
    exact Or.inl ⟨hc, (Option.some.inj h).symm⟩
  · have hcf : s.contains coid = false := by
      revert hc
      cases s.contains coid <;> simp
    rw [if_neg hc] at h
    cases hg : cat.get_course coid with
    | none =>
      rw [hg] at h
      cases h
    | some course =>
      rw [hg] at h
      rw [show (match some course with
          | none => none
          | some course =>
            if (course.coreqs.all fun g => coreqGroupOK s sem g) = true then
              if (course.prereqs.all fun g => prereqGroupOK s sem g) = true
              then some (s.scAdd sem coid) else none
            else none)
        = (if (course.coreqs.all fun g => coreqGroupOK s sem g) = true then
            if (course.prereqs.all fun g => prereqGroupOK s sem g) = true
            then some (s.scAdd sem coid) else none
          else none) from rfl] at h
      by_cases hco : course.coreqs.all (fun g => coreqGroupOK s sem g) = true
      · rw [if_pos hco] at h
        by_cases hpr : course.prereqs.all (fun g => prereqGroupOK s sem g) = true
        · rw [if_pos hpr] at h
          exact Or.inr ⟨hcf, (Option.some.inj h).symm, course, rfl, hco, hpr⟩
        · rw [if_neg hpr] at h
          cases h
      · rw [if_neg hco] at h
        cases h

theorem prereqGroupOK_iff {s : Schedule} {sem : SemTime} {g : List CourseID} :
    prereqGroupOK s sem g = true ↔
      ∃ p ∈ g, ∃ e ∈ s.semesters, SemTime.blt e.1 sem = true ∧ p ∈ e.2.courses := by
  unfold prereqGroupOK
  rw [List.any_eq_true]
  constructor
  · rintro ⟨p, hp, hfound⟩
    rw [List.any_eq_true] at hfound
    obtain ⟨e, he, hcon⟩ := hfound
    rw [List.mem_filter] at he
    exact ⟨p, hp, e, he.1, he.2, Semester.contains_iff.mp hcon⟩
  · rintro ⟨p, hp, e, he, hblt, hmem⟩
    refine ⟨p, hp, ?_⟩
    rw [List.any_eq_true]
    exact ⟨e, List.mem_filter.mpr ⟨he, hblt⟩, Semester.contains_iff.mpr hmem⟩

theorem PrereqSatAt_of_all {cat : Catalog} {s : Schedule} {coid : CourseID}
    {sem : SemTime} {course : Course} (hg : cat.get_course coid = some course)
    (hall : course.prereqs.all (fun g => prereqGroupOK s sem g) = true) :
    PrereqSatAt cat s coid sem := by
  intro course' hcourse' g hmem
  rw [hg] at hcourse'
  have hcc : course = course' := Option.some.inj hcourse'
  subst hcc
  exact prereqGroupOK_iff.mp (List.all_eq_true.mp hall g hmem)

theorem expandReq_foldl_evolves {cat : Catalog}
    {f : CourseID → Schedule → List Schedule}
    (hf : ∀ p w s', s' ∈ f p w → Evolves cat w s') :
    ∀ (groups : List (List CourseID)) (scheds : List Schedule) s',
      s' ∈ groups.foldl (expandReq f) scheds → ∃ w ∈ scheds, Evolves cat w s' := by
  intro groups
  induction groups with
  | nil =>
    intro scheds s' h
    exact ⟨s', h, Evolves.refl s'⟩
  | cons g gs ih =>
    intro scheds s' h
    rw [List.foldl_cons] at h
    obtain ⟨w₁, hw₁, hev₁⟩ := ih _ _ h
    unfold expandReq at hw₁
    rw [List.mem_flatMap] at hw₁
    obtain ⟨p, hp, hw₁⟩ := hw₁
    rw [List.mem_flatMap] at hw₁
    obtain ⟨w, hw, hmem⟩ := hw₁
    by_cases hc : w.contains p = true
    · rw [if_pos hc] at hmem
      rw [List.mem_singleton] at hmem
      exact ⟨w, hw, hmem ▸ hev₁⟩
    · rw [if_neg hc] at hmem
      exact ⟨w, hw, (hf p w w₁ hmem).chain hev₁⟩

theorem add_course_to_schedule_succ {fuel : Nat} {coid : CourseID}
    {sched : Schedule} {cat : Catalog} {course : Course}
    (hg : cat.get_course coid = some course) :
    add_course_to_schedule (fuel + 1) coid sched cat =
      course.coreqs.foldl
        (expandReq (fun p w => add_course_to_schedule fuel p w cat))
        (((course.prereqs.foldl
            (expandReq (fun p w => add_course_to_schedule fuel p w cat))
            [sched]).flatMap
          (fun w => w.semesters.filterMap (fun e => w.try_add coid e.1 cat)))) := by
  conv_lhs => rw [add_course_to_schedule]
  rw [hg]

theorem add_course_to_schedule_sound :
    ∀ (fuel : Nat) (coid : CourseID) (sched : Schedule) (cat : Catalog)
      (s' : Schedule), s' ∈ add_course_to_schedule fuel coid sched cat →
      Evolves cat sched s' ∧ s'.contains coid = true := by
  intro fuel
  induction fuel with
  | zero =>
    intro coid sched cat s' h
    cases h
  | succ fuel ih =>
    intro coid sched cat s' h
    cases hg : cat.get_course coid with
    | none =>
      rw [add_course_to_schedule, hg] at h
      cases h
    | some course =>
      rw [add_course_to_schedule_succ hg] at h
      have hf : ∀ p w s₀, s₀ ∈ add_course_to_schedule fuel p w cat → Evolves cat w s₀ :=
        fun p w s₀ hh => (ih p w cat s₀ hh).1
      obtain ⟨s₁, hs₁, hev₂⟩ := expandReq_foldl_evolves hf course.coreqs _ s' h
      rw [List.mem_flatMap] at hs₁
      obtain ⟨w, hw, hs₁⟩ := hs₁
      rw [List.mem_filterMap] at hs₁
      obtain ⟨e, he, htry⟩ := hs₁
      obtain ⟨w₀, hw₀, hev₀⟩ := expandReq_foldl_evolves hf course.prereqs [sched] w hw
      rw [List.mem_singleton] at hw₀
      subst hw₀
      have htmem : e.1 ∈ w.times := List.mem_map_of_mem (fun e => e.1) he
      rcases try_add_some_elim htry with ⟨hcon, rfl⟩ | ⟨hncon, rfl, course', hg', hco, hpr⟩
      · exact ⟨hev₀.chain hev₂, hev₂.containsMono hcon⟩
      · have hstep : Evolves cat w (w.scAdd e.1 coid) :=
          Evolves.step e.1 coid (Evolves.refl w) hncon htmem (PrereqSatAt_of_all hg' hpr)
        refine ⟨(hev₀.chain hstep).chain hev₂, ?_⟩
        exact hev₂.containsMono (contains_scAdd_self hncon htmem)


/-! ### Corequisite check characterization (claim C4) -/

theorem coreqScan_fst (s : Schedule) (sem : SemTime) :
    ∀ g : List CourseID,
      (coreqScan s sem g).1 = g.any (fun m => (s.get_time m).isSome) := by
  intro g
  induction g with
  | nil => rfl
  | cons c rest ih =>
    cases hg : s.get_time c with
    | some t =>
      simp only [coreqScan, hg]
      by_cases ht : t = sem
      · rw [if_pos ht]
        simp [List.any_cons, hg]
      · rw [if_neg ht]
        simp [List.any_cons, hg]
    | none =>
      simp only [coreqScan, hg]
      simp only [List.any_cons, hg, Option.isSome_none, Bool.false_or]
      exact ih

theorem coreqScan_snd (s : Schedule) (sem : SemTime) :
    ∀ g : List CourseID,
      (coreqScan s sem g).2
        = g.any (fun m => decide (s.get_time m = some sem)) := by
  intro g
  induction g with
  | nil => rfl
  | cons c rest ih =>
    cases hg : s.get_time c with
    | some t =>
      simp only [coreqScan, hg]
      by_cases ht : t = sem
      · rw [if_pos ht]
        subst ht
        simp [List.any_cons, hg]
      · rw [if_neg ht]
        simp only [List.any_cons, hg]
        have hdec : decide ((some t : Option SemTime) = some sem) = false := by
          simp [ht]
        rw [hdec, Bool.false_or]
        exact ih
    | none =>
      simp only [coreqScan, hg]
      simp only [List.any_cons, hg]
      have hdec : decide ((none : Option SemTime) = some sem) = false := by simp
      rw [hdec, Bool.false_or]
      exact ih

theorem coreqGroupOK_iff {s : Schedule} {sem : SemTime} {g : List CourseID} :
    coreqGroupOK s sem g = true ↔
      ((∀ m ∈ g, s.get_time m = none) ∨ ∃ m ∈ g, s.get_time m = some sem) := by
  unfold coreqGroupOK
  rw [coreqScan_fst, coreqScan_snd]
  constructor
  · intro h
    by_cases hsem : (g.any (fun m => decide (s.get_time m = some sem))) = true
    · right
      obtain ⟨m, hm, hd⟩ := List.any_eq_true.mp hsem
      exact ⟨m, hm, of_decide_eq_true hd⟩
    · left
      have hfst : (g.any (fun m => (s.get_time m).isSome)) = false := by
        revert h hsem
        cases g.any (fun m => (s.get_time m).isSome) <;>
          cases g.any (fun m => decide (s.get_time m = some sem)) <;> simp
      intro m hm
      have := List.any_eq_false.mp hfst m hm
      cases hq : s.get_time m with
      | none => rfl
      | some t =>
        rw [hq] at this
        simp at this
  · intro h
    rcases h with h | ⟨m, hm, hsome⟩
    · have h1 : (g.any (fun m => (s.get_time m).isSome)) = false := by
        rw [List.any_eq_false]
        intro m hm
        rw [h m hm]
        simp
      have h2 : (g.any (fun m => decide (s.get_time m = some sem))) = false := by
        rw [List.any_eq_false]
        intro m hm
        rw [h m hm]
        simp
      rw [h1, h2]
      rfl
    · have h1 : (g.any (fun m => (s.get_time m).isSome)) = true :=
        List.any_eq_true.mpr ⟨m, hm, by rw [hsome]; rfl⟩
      have h2 : (g.any (fun m => decide (s.get_time m = some sem))) = true :=
        List.any_eq_true.mpr ⟨m, hm, decide_eq_true hsome⟩
      rw [h1, h2]
      rfl

theorem coreq_all_iff {s : Schedule} {sem : SemTime} {gs : List (List CourseID)} :
    (gs.all fun g => coreqGroupOK s sem g) = true ↔
      ∀ g ∈ gs, ((∀ m ∈ g, s.get_time m = none) ∨
        ∃ m ∈ g, s.get_time m = some sem) := by
  rw [List.all_eq_true]
  constructor
  · intro h g hg
    exact coreqGroupOK_iff.mp (h g hg)
  · intro h g hg
    exact coreqGroupOK_iff.mpr (h g hg)


/-! ### Catalog add_course unfolding -/

theorem add_course_eq_of_found {cat : Catalog} {C existing : Course}
    (h : cat.get_course C.coid = some existing) :
    cat.add_course C =
      Catalog.insertCourse
        (C.prereqs.flatten.foldl Catalog.registerPrereq (cat.removeCourse C.coid))
        C.coid { C with post_options := existing.post_options } := by
  unfold Catalog.add_course
  rw [h]

theorem add_course_eq_of_missing {cat : Catalog} {C : Course}
    (h : cat.get_course C.coid = none) :
    cat.add_course C =
      Catalog.insertCourse (C.prereqs.flatten.foldl Catalog.registerPrereq cat)
        C.coid C := by
  unfold Catalog.add_course
  rw [h]

/-! ### The claims -/

/-- C1 (counterexample): the claim as stated is false.  With `c1X` already
scheduled in Fall 0 and its prerequisite `c1P` nowhere, the enumeration
returns a non-empty list, but in the returned schedule the prerequisite
group `[c1P]` has no member strictly earlier than `c1X`'s semester
(`try_add` accepts an already-present course without re-checking its
prerequisites). -/
theorem c1_counterexample :
    add_course_to_schedule 3 c1X c1Sched c1Cat ≠ [] ∧
    ∃ s' ∈ add_course_to_schedule 3 c1X c1Sched c1Cat,
      s'.get_time c1X = some (SemTime.Fall 0) ∧
      ¬ (∀ g ∈ c1CourseX.prereqs, ∃ p ∈ g, ∃ e ∈ s'.semesters,
          SemTime.blt e.1 (SemTime.Fall 0) = true ∧ p ∈ e.2.courses) := by
  decide

/-- C1 (amended): if the schedule's semester keys are distinct and `X` is
not already scheduled in `S`, then every schedule returned by
`add_course_to_schedule` (at any fuel) contains `X` in exactly one
semester, and every prerequisite group of `X` has a member scheduled
strictly earlier (by `SemTime` order) than `X`'s semester. -/
theorem c1_placement_monotone (fuel : Nat) (X : CourseID) (S : Schedule)
    (cat : Catalog) (course : Course) (s' : Schedule)
    (hcat : cat.get_course X = some course)
    (hnodup : S.times.Nodup)
    (hnotin : S.contains X = false)
    (hmem : s' ∈ add_course_to_schedule fuel X S cat) :
    countOcc s' X = 1 ∧
    ∃ tX, s'.get_time X = some tX ∧
      ∀ g ∈ course.prereqs, ∃ p ∈ g, ∃ e ∈ s'.semesters,
        SemTime.blt e.1 tX = true ∧ p ∈ e.2.courses := by
  obtain ⟨hev, hcon⟩ := add_course_to_schedule_sound fuel X S cat s' hmem
  constructor
  · refine Nat.le_antisymm ?_ (one_le_countOcc hcon)
    refine hev.countOcc_le_one hnodup ?_
    rw [countOcc_eq_zero hnotin]
    omega
  · obtain ⟨t, hget, hsat⟩ := hev.goodAt hnotin hcon
    exact ⟨t, hget, hsat course hcat⟩

/-- C1 (witness): placing `c1wX` (prerequisite group `[c1wP]`) into an
empty two-semester schedule yields the schedule with `c1wP` in Fall 0 and
`c1wX` in Spring 1, and the amended claim holds there. -/
theorem c1_witness :
    countOcc c1wOut c1wX = 1 ∧
    ∃ tX, c1wOut.get_time c1wX = some tX ∧
      ∀ g ∈ c1wCourseX.prereqs, ∃ p ∈ g, ∃ e ∈ c1wOut.semesters,
        SemTime.blt e.1 tX = true ∧ p ∈ e.2.courses :=
  c1_placement_monotone 2 c1wX c1wS c1wCat c1wCourseX c1wOut (by decide)
    (by decide) (by decide) (by decide)

/-- C2 (counterexample): the claim as stated is false for codes below
1000.  `⟨"ABCD", 999⟩` is a valid CourseID by the claim's criterion
(4 uppercase letters, code in 0..9999), but its rendering `"ABCD 999"`
has a space among its last four characters, so parsing fails. -/
theorem c2_counterexample :
    (CourseID.mk "ABCD" 999).subj.data.length = 4 ∧
    (∀ ch ∈ (CourseID.mk "ABCD" 999).subj.data, 'A' ≤ ch ∧ ch ≤ 'Z') ∧
    (CourseID.mk "ABCD" 999).code ≤ 9999 ∧
    CourseID.fromStr (CourseID.render (CourseID.mk "ABCD" 999)) = none := by
  decide

/-- C2 (witness): the round trip at the concrete identifier
`⟨"MATH", 2010⟩`. -/
theorem c2_witness :
    CourseID.fromStr (CourseID.render ⟨"MATH", 2010⟩) = some ⟨"MATH", 2010⟩ :=
  courseID_roundtrip ⟨"MATH", 2010⟩ (by decide) (by decide) (by decide) (by decide)

/-- C3: `CourseID::from` agrees everywhere with the parser described by
the claim (fail exactly on bad length, non-uppercase subject characters,
or an unparseable last-four-character code; otherwise subject is the
first four characters and the code is the value of the last four,
ignoring characters in between). -/
theorem c3_parse_characterization (s : String) :
    CourseID.fromStr s = CourseID.fromSpec s :=
  fromStr_eq_fromSpec s

/-- C4 (counterexample): the claim's "inconsistent mix fails" part is
false.  Course `c4X` has corequisite group `[c4A, c4B]`; `c4A` is
scheduled in Fall 0 and `c4B` in Spring 1 (a mix of
present-at-other-time and present-at-target), yet
`try_add(c4X, Spring 1)` succeeds, because the loop accepts the group as
soon as any member sits at the target time. -/
theorem c4_counterexample :
    c4Sched.contains c4X = false ∧
    c4Cat.get_course c4X = some c4Course ∧
    [c4A, c4B] ∈ c4Course.coreqs ∧
    c4Sched.get_time c4A = some (SemTime.Fall 0) ∧
    c4Sched.get_time c4B = some (SemTime.Spring 1) ∧
    SemTime.Fall 0 ≠ SemTime.Spring 1 ∧
    c4Sched.try_add c4X (SemTime.Spring 1) c4Cat ≠ none := by
  decide

/-- C4 (amended): for a course not yet in the schedule, (a) if some
corequisite group has a scheduled member but no member at the target
time, the placement fails; (b) if every corequisite group either has no
scheduled member or has some member at exactly the target time (in
particular, a mixed group with one member at the target passes), the
corequisite check imposes nothing and the outcome is decided by the
prerequisite check alone. -/
theorem c4_coreq_policy (s : Schedule) (id : CourseID) (sem : SemTime)
    (cat : Catalog) (course : Course)
    (hg : cat.get_course id = some course)
    (hn : s.contains id = false) :
    ((∃ g ∈ course.coreqs, (∃ m ∈ g, s.get_time m ≠ none) ∧
        (∀ m ∈ g, s.get_time m ≠ some sem)) → s.try_add id sem cat = none) ∧
    ((∀ g ∈ course.coreqs, (∀ m ∈ g, s.get_time m = none) ∨
        (∃ m ∈ g, s.get_time m = some sem)) →
      s.try_add id sem cat =
        (if (course.prereqs.all fun g => prereqGroupOK s sem g) = true
         then some (s.scAdd sem id) else none)) := by
  constructor
  · rintro ⟨g, hgmem, ⟨m₀, hm₀, hm₀s⟩, hnone⟩
    have hbadProp : ¬ ((∀ m ∈ g, s.get_time m = none) ∨
        ∃ m ∈ g, s.get_time m = some sem) := by
      rintro (hleft | ⟨m, hm, hsome⟩)
      · exact hm₀s (hleft m₀ hm₀)
      · exact hnone m hm hsome
    have hallf : ¬ (course.coreqs.all fun g => coreqGroupOK s sem g) = true := by
      intro hall
      exact hbadProp (coreqGroupOK_iff.mp (List.all_eq_true.mp hall g hgmem))
    rw [try_add_not_contains hn hg, if_neg hallf]
  · intro hgood
    rw [try_add_not_contains hn hg, if_pos (coreq_all_iff.mpr hgood)]

/-- C4 (witness): the amended claim instantiated at a concrete schedule
with corequisite group `[c4wA]` and `c4wA` already in Fall 0. -/
theorem c4_witness :
    ((∃ g ∈ c4wCourse.coreqs, (∃ m ∈ g, c4wSched.get_time m ≠ none) ∧
        (∀ m ∈ g, c4wSched.get_time m ≠ some (SemTime.Fall 0))) →
      c4wSched.try_add c4wX (SemTime.Fall 0) c4wCat = none) ∧
    ((∀ g ∈ c4wCourse.coreqs, (∀ m ∈ g, c4wSched.get_time m = none) ∨
        (∃ m ∈ g, c4wSched.get_time m = some (SemTime.Fall 0))) →
      c4wSched.try_add c4wX (SemTime.Fall 0) c4wCat =
        (if (c4wCourse.prereqs.all fun g =>
              prereqGroupOK c4wSched (SemTime.Fall 0) g) = true
         then some (c4wSched.scAdd (SemTime.Fall 0) c4wX) else none)) :=
  c4_coreq_policy c4wSched c4wX (SemTime.Fall 0) c4wCat c4wCourse
    (by decide) (by decide)

/-- C5: for a course already present anywhere in the schedule, `try_add`
succeeds and returns the unchanged schedule, regardless of the target
time, the catalog, and any prerequisite or corequisite constraints (the
check happens before the catalog is even consulted). -/
theorem c5_noop (s : Schedule) (coid : CourseID) (sem : SemTime)
    (cat : Catalog) (h : s.contains coid = true) :
    s.try_add coid sem cat = some s := by
  unfold Schedule.try_add
  rw [if_pos h]

/-- C5 (witness): re-adding `c5Id`, already in Fall 0, at Spring 1 with
an empty catalog (so no constraint could even be looked up) returns the
schedule unchanged. -/
theorem c5_witness :
    c5Sched.try_add c5Id (SemTime.Spring 1) ⟨[]⟩ = some c5Sched :=
  c5_noop c5Sched c5Id (SemTime.Spring 1) ⟨[]⟩ (by decide)

/-- C6: for a CourseID that is not a key of the catalog,
`add_course_to_schedule` returns the empty list at every fuel (the input
schedule and catalog are values and are unchanged by construction in this
pure embedding, mirroring the `&`-borrows in the Rust signature). -/
theorem c6_unknown_course (fuel : Nat) (coid : CourseID) (s : Schedule)
    (cat : Catalog) (h : cat.get_course coid = none) :
    add_course_to_schedule fuel coid s cat = [] := by
  cases fuel with
  | zero => rfl
  | succ fuel => rw [add_course_to_schedule, h]

/-- C6 (witness): an unknown course in an empty catalog yields no
placement. -/
theorem c6_witness :
    add_course_to_schedule 5 c6Id c6Sched ⟨[]⟩ = [] :=
  c6_unknown_course 5 c6Id c6Sched ⟨[]⟩ (by decide)

/-- C7: `SemTime` is totally ordered by `blt`: comparison is decided by
year first and for equal years by Spring < Summer < Fall; the chain
Spring 2020 < Summer 2020 < Fall 2020 < Spring 2021 holds; and the order
is transitive, asymmetric (antisymmetry of the strict order), and total. -/
theorem c7_semtime_total_order :
    (∀ a b : SemTime, SemTime.blt a b = true ↔
      (a.year < b.year ∨ (a.year = b.year ∧ a.seasonRank < b.seasonRank))) ∧
    SemTime.blt (SemTime.Spring 2020) (SemTime.Summer 2020) = true ∧
    SemTime.blt (SemTime.Summer 2020) (SemTime.Fall 2020) = true ∧
    SemTime.blt (SemTime.Fall 2020) (SemTime.Spring 2021) = true ∧
    (∀ a b c : SemTime, SemTime.blt a b = true → SemTime.blt b c = true →
      SemTime.blt a c = true) ∧
    (∀ a b : SemTime, SemTime.blt a b = true → SemTime.blt b a = true → False) ∧
    (∀ a b : SemTime, SemTime.blt a b = true ∨ a = b ∨ SemTime.blt b a = true) := by
  refine ⟨fun a b => SemTime.blt_iff, by decide, by decide, by decide, ?_, ?_, ?_⟩
  · intro a b c hab hbc
    rw [SemTime.blt_iff] at hab hbc ⊢
    omega
  · intro a b hab hba
    rw [SemTime.blt_iff] at hab hba
    omega
  · intro a b
    by_cases hab : a = b
    · exact Or.inr (Or.inl hab)
    · have hne : ¬ (a.year = b.year ∧ a.seasonRank = b.seasonRank) := by
        rintro ⟨hy, hs⟩
        exact hab (SemTime.eq_of_year_seasonRank hy hs)
      have hsplit : (a.year < b.year ∨ (a.year = b.year ∧ a.seasonRank < b.seasonRank)) ∨
          (b.year < a.year ∨ (b.year = a.year ∧ b.seasonRank < a.seasonRank)) := by
        omega
      rcases hsplit with h | h
      · exact Or.inl (SemTime.blt_iff.mpr h)
      · exact Or.inr (Or.inr (SemTime.blt_iff.mpr h))

/-- C7 (witness): transitivity of the total order applied at Spring 2020
< Summer 2020 < Fall 2020. -/
theorem c7_witness :
    SemTime.blt (SemTime.Spring 2020) (SemTime.Fall 2020) = true :=
  c7_semtime_total_order.2.2.2.2.1 (SemTime.Spring 2020) (SemTime.Summer 2020)
    (SemTime.Fall 2020) (by decide) (by decide)

/-- C8: re-adding a course whose key exists replaces the stored record in
full (name and all other fields come from the new record) except that the
stored `post_options` is the previously stored record's `post_options`;
the new record's own `post_options` field is discarded. -/
theorem c8_reinsert (cat : Catalog) (C existing : Course)
    (h : cat.get_course C.coid = some existing) :
    (cat.add_course C).get_course C.coid
      = some { C with post_options := existing.post_options } := by
  rw [add_course_eq_of_found h]
  exact get_insertCourse_self _ _ _

/-- C8 (witness): re-inserting `c8New` over `c8Old` keeps the new name
and the old back-references. -/
theorem c8_witness :
    (c8Cat.add_course c8New).get_course c8New.coid
      = some { c8New with post_options := c8Old.post_options } :=
  c8_reinsert c8Cat c8New c8Old (by decide)

/-- C9 (counterexample): the "P's post_options gains P itself" part of
the claim fails when a course lists itself as its own prerequisite: the
final insertion of the course record overwrites the placeholder that
carried the self back-reference. -/
theorem c9_counterexample :
    c9X ∈ c9Course.prereqs.flatten ∧
    (Catalog.add_course ⟨[]⟩ c9Course).get_course c9X = some c9Course ∧
    c9X ∉ c9Course.post_options := by
  decide

/-- C9 (amended): after `add_course(C)`, every CourseID `P` appearing in
a prerequisite group of `C` is a key of the catalog; and when `P` is not
`C`'s own identifier, the record stored at `P` has `P` itself in its
`post_options` (the back-reference registered is the prerequisite's own
identifier, not the dependent course's). -/
theorem c9_backrefs (cat : Catalog) (C : Course) (p : CourseID)
    (hp : p ∈ C.prereqs.flatten) :
    ((cat.add_course C).get_course p).isSome = true ∧
    (p ≠ C.coid →
      ∃ c, (cat.add_course C).get_course p = some c ∧ p ∈ c.post_options) := by
  have key : ∀ (cat₁ : Catalog) (course' : Course),
      ((Catalog.insertCourse
          (C.prereqs.flatten.foldl Catalog.registerPrereq cat₁)
          C.coid course').get_course p).isSome = true ∧
      (p ≠ C.coid →
        ∃ c, (Catalog.insertCourse
            (C.prereqs.flatten.foldl Catalog.registerPrereq cat₁)
            C.coid course').get_course p = some c ∧ p ∈ c.post_options) := by
    intro cat₁ course'
    constructor
    · by_cases hpc : p = C.coid
      · subst hpc
        rw [get_insertCourse_self]
        rfl
      · obtain ⟨c, hc, hm⟩ := foldl_registerPrereq_mem C.prereqs.flatten cat₁ hp
        rw [get_insertCourse_ne _ _ hpc, hc]
        rfl
    · intro hpc
      obtain ⟨c, hc, hm⟩ := foldl_registerPrereq_mem C.prereqs.flatten cat₁ hp
      refine ⟨c, ?_, hm⟩
      rw [get_insertCourse_ne _ _ hpc]
      exact hc
  cases hg : cat.get_course C.coid with
  | some existing =>
    rw [add_course_eq_of_found hg]
    exact key _ _
  | none =>
    rw [add_course_eq_of_missing hg]
    exact key _ _

/-- C9 (witness): adding `c9wCourse` (prerequisite `c9wP`) to an empty
catalog creates a key for `c9wP` whose record holds `c9wP` in its
`post_options`. -/
theorem c9_witness :
    ((Catalog.add_course ⟨[]⟩ c9wCourse).get_course c9wP).isSome = true ∧
    (c9wP ≠ c9wCourse.coid →
      ∃ c, (Catalog.add_course ⟨[]⟩ c9wCourse).get_course c9wP = some c ∧
        c9wP ∈ c.post_options) :=
  c9_backrefs ⟨[]⟩ c9wCourse c9wP (by decide)

/-- C10: the enumeration only extends schedules: every returned schedule
has exactly the semester keys of the input (same list, same order), and
every course scheduled in a semester of the input is still scheduled in
that same semester of the output; no semester is added or removed and no
course is moved or removed. -/
theorem c10_frame (fuel : Nat) (X : CourseID) (S : Schedule) (cat : Catalog)
    (s' : Schedule) (hmem : s' ∈ add_course_to_schedule fuel X S cat) :
    s'.times = S.times ∧
    ∀ t c, (∃ e ∈ S.semesters, e.1 = t ∧ c ∈ e.2.courses) →
      ∃ e ∈ s'.semesters, e.1 = t ∧ c ∈ e.2.courses := by
  obtain ⟨hev, _⟩ := add_course_to_schedule_sound fuel X S cat s' hmem
  refine ⟨hev.timesEq, ?_⟩
  rintro t c ⟨e, he, rfl, hm⟩
  obtain ⟨e', he', hk, hm'⟩ := Ext.mem_mono hev.ext he hm
  exact ⟨e', he', hk, hm'⟩

/-- C10 (witness): placing `c10X` into a schedule with `c10Other` in
Fall 0 keeps the keys and keeps `c10Other` in Fall 0. -/
theorem c10_witness :
    c10Out1.times = c10S.times ∧
    ∀ t c, (∃ e ∈ c10S.semesters, e.1 = t ∧ c ∈ e.2.courses) →
      ∃ e ∈ c10Out1.semesters, e.1 = t ∧ c ∈ e.2.courses :=
  c10_frame 1 c10X c10S c10Cat c10Out1 (by decide)


end Myca
